import Mathlib

/-!
Shallow embedding of the CCVI codec from `CCVI.Converter.py`
(`convert_to_ccvi` = encoder, `convert_from_ccvi` = decoder).

Machine integers are modelled as `ℕ`/`ℤ`, floats as `ℚ`.  Python
`int(x)` (truncation toward zero) is `pyInt`; numpy negative-index
semantics are `npIndex`.
-/

/-- One RGBA pixel of the source raster (`arr[y, x]`, four uint8 channels). -/
structure RGBA where
  r : ℕ
  g : ℕ
  b : ℕ
  a : ℕ
deriving DecidableEq, Repr

/-- The RGB part of a pixel (`color[:3]` in the source). -/
def RGBA.rgb (c : RGBA) : ℕ × ℕ × ℕ := (c.r, c.g, c.b)

/-- A source raster: the RGBA array `arr` of shape `height × width × 4`,
with `pix y x` the pixel at row `y`, column `x`. -/
structure Raster where
  width : ℕ
  height : ℕ
  pix : ℕ → ℕ → RGBA

/-- All `(y, x)` positions of a `height × width` array in row-major scan
order (`y` outer, `x` inner), the iteration order of `arr.reshape(-1, 4)`
and of `np.argwhere`. -/
def scanPositions (w h : ℕ) : List (ℕ × ℕ) :=
  (List.range h).flatMap fun y => (List.range w).map fun x => (y, x)

/-- The raster as a flat row-major pixel list (`arr.reshape(-1, arr.shape[2])`). -/
def pixelList (img : Raster) : List RGBA :=
  (scanPositions img.width img.height).map fun p => img.pix p.1 p.2

/-- Row-major coordinate list of the boolean mask
`np.all(arr[:, :, :3] == color[:3], axis=2)`, i.e. `np.argwhere(mask)`:
the `(y, x)` with RGB equal to `c`, in scan order. -/
def maskCoords (img : Raster) (c : ℕ × ℕ × ℕ) : List (ℕ × ℕ) :=
  (scanPositions img.width img.height).filter fun p => (img.pix p.1 p.2).rgb = c

/-- Lexicographic order on RGBA quadruples: the row order produced by
`np.unique(..., axis=0)` on a uint8 array (byte-wise comparison). -/
def lexLe (c d : RGBA) : Prop :=
  c.r < d.r ∨ (c.r = d.r ∧ (c.g < d.g ∨ (c.g = d.g ∧
    (c.b < d.b ∨ (c.b = d.b ∧ c.a ≤ d.a)))))

/-- Strict lexicographic order on RGBA quadruples. -/
def lexLt (c d : RGBA) : Prop :=
  c.r < d.r ∨ (c.r = d.r ∧ (c.g < d.g ∨ (c.g = d.g ∧
    (c.b < d.b ∨ (c.b = d.b ∧ c.a < d.a)))))

instance : DecidableRel lexLe := fun c d => by
  unfold lexLe; infer_instance

instance : DecidableRel lexLt := fun c d => by
  unfold lexLt; infer_instance

instance : IsTotal RGBA lexLe where
  total c d := by
    unfold lexLe
    rcases Nat.lt_trichotomy c.r d.r with h | h | h
    · exact Or.inl (Or.inl h)
    · rcases Nat.lt_trichotomy c.g d.g with h2 | h2 | h2
      · exact Or.inl (Or.inr ⟨h, Or.inl h2⟩)
      · rcases Nat.lt_trichotomy c.b d.b with h3 | h3 | h3
        · exact Or.inl (Or.inr ⟨h, Or.inr ⟨h2, Or.inl h3⟩⟩)
        · rcases Nat.le_total c.a d.a with h4 | h4
          · exact Or.inl (Or.inr ⟨h, Or.inr ⟨h2, Or.inr ⟨h3, h4⟩⟩⟩)
          · exact Or.inr (Or.inr ⟨h.symm, Or.inr ⟨h2.symm, Or.inr ⟨h3.symm, h4⟩⟩⟩)
        · exact Or.inr (Or.inr ⟨h.symm, Or.inr ⟨h2.symm, Or.inl h3⟩⟩)
      · exact Or.inr (Or.inr ⟨h.symm, Or.inl h2⟩)
    · exact Or.inr (Or.inl h)

instance : IsTrans RGBA lexLe where
  trans c d e hcd hde := by
    unfold lexLe at *
    rcases hcd with h | ⟨hr, h⟩ <;> rcases hde with h2 | ⟨hr2, h2⟩
    · exact Or.inl (Nat.lt_trans h h2)
    · exact Or.inl (hr2 ▸ h)
    · exact Or.inl (hr ▸ h2)
    · refine Or.inr ⟨hr.trans hr2, ?_⟩
      rcases h with h | ⟨hg, h⟩ <;> rcases h2 with h2 | ⟨hg2, h2⟩
      · exact Or.inl (Nat.lt_trans h h2)
      · exact Or.inl (hg2 ▸ h)
      · exact Or.inl (hg ▸ h2)
      · refine Or.inr ⟨hg.trans hg2, ?_⟩
        rcases h with h | ⟨hb, h⟩ <;> rcases h2 with h2 | ⟨hb2, h2⟩
        · exact Or.inl (Nat.lt_trans h h2)
        · exact Or.inl (hb2 ▸ h)
        · exact Or.inl (hb ▸ h2)
        · exact Or.inr ⟨hb.trans hb2, h.trans h2⟩

/-- Distinct RGBA values of the raster in ascending lexicographic order:
`np.unique(arr.reshape(-1, arr.shape[2]), axis=0)` (sorted unique rows). -/
def encodeColors (img : Raster) : List RGBA :=
  List.insertionSort lexLe (pixelList img).dedup

/-- Python `int(q)` on a float: truncation toward zero. -/
def pyInt (q : ℚ) : ℤ := q.num.tdiv q.den

/-- Mathematical floor of a rational, as used by the spec text
`floor(count*(1-m))`. -/
def ratFloorZ (q : ℚ) : ℤ := q.num.fdiv q.den

/-- Worker for `stride`: `strideAux k c l` emits the elements of `l` at
indices `c, c + k, c + 2k, …`; `c` is the countdown until the next
emitted element. -/
def strideAux (k : ℕ) (c : ℕ) (l : List α) : List α :=
  match l, c with
  | [], _ => []
  | x :: rest, 0 => x :: strideAux k (k - 1) rest
  | _ :: rest, c + 1 => strideAux k c rest

/-- Python slice `l[::k]` for a step `k ≥ 1`: the elements at indices
`0, k, 2k, …` of `l`. -/
def stride (k : ℕ) (l : List α) : List α := strideAux k 0 l

/-- One retained sample (a `vectors` entry of the encoder output). -/
structure Vec where
  x : ℕ
  y : ℕ
  height : ℚ
  saturation : ℚ
  alpha : ℚ
deriving DecidableEq, Repr

/-- One plane of the encoder output. -/
structure Plane where
  color : ℕ × ℕ × ℕ
  vectors : List Vec
deriving DecidableEq, Repr

/-- The CCVI document produced by the encoder. -/
structure Document where
  width : ℕ
  height : ℕ
  planes : List Plane
  margin_error : ℚ
deriving DecidableEq, Repr

/-- The sample the encoder computes at coordinate `(y, x)`:
`height = arr[y, x, :3].mean() / 255`,
`saturation = (max - min) / 255` over the RGB channels,
`alpha = arr[y, x, 3] / 255`. -/
def vecAt (img : Raster) (p : ℕ × ℕ) : Vec :=
  let c := img.pix p.1 p.2
  { x := p.2
    y := p.1
    height := ((c.r + c.g + c.b : ℕ) : ℚ) / 3 / 255
    saturation := ((max c.r (max c.g c.b) - min c.r (min c.g c.b) : ℕ) : ℚ) / 255
    alpha := (c.a : ℚ) / 255 }

/-- The mask population `len(mask_indices)` for an RGB color. -/
def maskCount (img : Raster) (c : ℕ × ℕ × ℕ) : ℕ := (maskCoords img c).length

/-- The encoder's `num_vectors = max(1, int(len(mask_indices) * (1 - margin_error)))`. -/
def numVectorsFor (m : ℚ) (count : ℕ) : ℕ :=
  max 1 (pyInt ((count : ℚ) * (1 - m))).toNat

/-- The encoder's stride `max(1, len(mask_indices) // num_vectors)`. -/
def strideFor (m : ℚ) (count : ℕ) : ℕ :=
  max 1 (count / numVectorsFor m count)

/-- The plane the encoder builds for one RGBA value `c` of `encodeColors`:
the RGB mask, the `if not np.any(mask): continue` guard (`none` = skipped),
and the stride sample `mask_indices[::max(1, count // num_vectors)]`. -/
def planeFor (img : Raster) (m : ℚ) (c : RGBA) : Option Plane :=
  let coords := maskCoords img c.rgb
  if coords.isEmpty then none
  else
    some { color := c.rgb
           vectors := (stride (strideFor m coords.length) coords).map (vecAt img) }

/-- The encoder `convert_to_ccvi` (its pure core: raster to document). -/
def encode (img : Raster) (m : ℚ) : Document :=
  { width := img.width
    height := img.height
    planes := (encodeColors img).filterMap (planeFor img m)
    margin_error := m }

/-- A persisted vector as read back by `json.load`: each field may be
absent (`none`).  Coordinates are arbitrary integers, as nothing in the
format restricts them. -/
structure PVec where
  x : Option ℤ
  y : Option ℤ
  height : Option ℚ
  saturation : Option ℚ
  alpha : Option ℚ
deriving DecidableEq, Repr

/-- A persisted plane as read back by `json.load`. -/
structure PPlane where
  color : Option (ℕ × ℕ × ℕ)
  vectors : Option (List PVec)
deriving DecidableEq, Repr

/-- A persisted CCVI document as read back by `json.load`. -/
structure PDoc where
  width : Option ℕ
  height : Option ℕ
  planes : Option (List PPlane)
  margin_error : Option ℚ
deriving DecidableEq, Repr

/-- The encoder output as it is serialized: every field present. -/
def Vec.toPersist (v : Vec) : PVec :=
  { x := some (v.x : ℤ), y := some (v.y : ℤ), height := some v.height
    saturation := some v.saturation, alpha := some v.alpha }

/-- The encoder output as it is serialized: every field present. -/
def Plane.toPersist (p : Plane) : PPlane :=
  { color := some p.color, vectors := some (p.vectors.map Vec.toPersist) }

/-- The encoder output as it is serialized: every field present. -/
def Document.toPersist (d : Document) : PDoc :=
  { width := some d.width, height := some d.height
    planes := some (d.planes.map Plane.toPersist), margin_error := some d.margin_error }

/-- Errors the decoder can raise: `formatError` is Python's `KeyError` on a
missing JSON field, `outOfBounds` is numpy's `IndexError` on an index
outside `[-n, n)`, `overflowError` is numpy's error when a Python integer
outside `[0, 255]` is stored into the uint8 canvas. -/
inductive DecodeErr where
  | formatError
  | outOfBounds
  | overflowError
deriving DecidableEq, Repr

/-- The output pixel format chosen by `convert_from_ccvi`:
`rgba` is saved as `.png`, `rgb` (alpha dropped) as `.jpeg`. -/
inductive Fmt where
  | rgba
  | rgb
deriving DecidableEq, Repr

/-- The reconstruction canvas `np.zeros((height, width, 4), dtype=np.uint8)`;
`rgbEntry y x` holds channels 0..2 and `alphaEntry y x` channel 3. -/
structure Canvas where
  width : ℕ
  height : ℕ
  rgbEntry : ℕ → ℕ → ℕ × ℕ × ℕ
  alphaEntry : ℕ → ℕ → ℕ

/-- The all-zero canvas (transparent black). -/
def blankCanvas (w h : ℕ) : Canvas :=
  { width := w, height := h, rgbEntry := fun _ _ => (0, 0, 0), alphaEntry := fun _ _ => 0 }

/-- Canvas after `canvas[y, x, :3] = color`. -/
def Canvas.setRGB (cv : Canvas) (yi xi : ℕ) (c : ℕ × ℕ × ℕ) : Canvas :=
  { cv with rgbEntry := fun y x => if y = yi ∧ x = xi then c else cv.rgbEntry y x }

/-- Canvas after `canvas[y, x, 3] = b`. -/
def Canvas.setAlpha (cv : Canvas) (yi xi : ℕ) (b : ℕ) : Canvas :=
  { cv with alphaEntry := fun y x => if y = yi ∧ x = xi then b else cv.alphaEntry y x }

/-- Numpy indexing into an axis of size `n`: index `i` is accepted iff
`-n ≤ i < n`, and a negative `i` silently wraps to `i + n`. -/
def npIndex (n : ℕ) (i : ℤ) : Option ℕ :=
  if 0 ≤ i ∧ i < (n : ℤ) then some i.toNat
  else if -(n : ℤ) ≤ i ∧ i < 0 then some (i + (n : ℤ)).toNat
  else none

/-- Reading a JSON field: absence is Python's `KeyError`. -/
def getField : Option α → Except DecodeErr α
  | some a => .ok a
  | none => .error .formatError

/-- Whether a Python integer fits the uint8 canvas store. -/
def byteOk (b : ℤ) : Prop := 0 ≤ b ∧ b ≤ 255

instance : DecidablePred byteOk := fun b => by
  unfold byteOk; infer_instance

/-- One iteration of the decoder's vector loop:
`x, y = vec["x"], vec["y"]`, then `canvas[y, x, :3] = color`, then
`canvas[y, x, 3] = int(vec["alpha"] * 255)`. -/
def writeVec (w h : ℕ) (color : ℕ × ℕ × ℕ) (cv : Canvas) (v : PVec) :
    Except DecodeErr Canvas := do
  let x ← getField v.x
  let y ← getField v.y
  match npIndex h y, npIndex w x with
  | some yi, some xi =>
    if byteOk color.1 ∧ byteOk color.2.1 ∧ byteOk color.2.2 then
      let a ← getField v.alpha
      if byteOk (pyInt (a * 255)) then
        .ok ((cv.setRGB yi xi color).setAlpha yi xi (pyInt (a * 255)).toNat)
      else .error .overflowError
    else .error .overflowError
  | _, _ => .error .outOfBounds

/-- One iteration of the decoder's plane loop:
`color = plane["color"]`, then the vector loop over `plane["vectors"]`. -/
def writePlane (w h : ℕ) (cv : Canvas) (p : PPlane) : Except DecodeErr Canvas := do
  let color ← getField p.color
  let vecs ← getField p.vectors
  vecs.foldlM (writeVec w h color) cv

/-- The test `np.any(canvas[:, :, 3] < 255)`. -/
def anyAlphaLt255 (cv : Canvas) : Bool :=
  (List.range cv.height).any fun y =>
    (List.range cv.width).any fun x => decide (cv.alphaEntry y x < 255)

/-- The decoder `convert_from_ccvi` (its pure core: persisted document to
canvas plus chosen output format). -/
def decode (d : PDoc) : Except DecodeErr (Canvas × Fmt) := do
  let w ← getField d.width
  let h ← getField d.height
  let planes ← getField d.planes
  let cv ← planes.foldlM (writePlane w h) (blankCanvas w h)
  if anyAlphaLt255 cv then .ok (cv, .rgba) else .ok (cv, .rgb)

/-- Observation helper: the RGB channels the decoder leaves at `(y, x)`. -/
def decodeRGBAt (d : PDoc) (y x : ℕ) : Option (ℕ × ℕ × ℕ) :=
  (decode d).toOption.map fun r => r.1.rgbEntry y x

/-- Observation helper: the alpha byte the decoder leaves at `(y, x)`. -/
def decodeAlphaAt (d : PDoc) (y x : ℕ) : Option ℕ :=
  (decode d).toOption.map fun r => r.1.alphaEntry y x

/-- Observation helper: the output format the decoder chooses. -/
def decodeFmt (d : PDoc) : Option Fmt :=
  (decode d).toOption.map fun r => r.2

/-- Shorthand for a persisted document with one plane holding one vector,
all fields present. -/
def mkDoc1 (w h : ℕ) (c : ℕ × ℕ × ℕ) (x y : ℤ) (hv sv av : ℚ) : PDoc :=
  { width := some w, height := some h
    planes := some [{ color := some c
                      vectors := some [{ x := some x, y := some y, height := some hv
                                         saturation := some sv, alpha := some av }] }]
    margin_error := some (1 / 10) }

/-- Pure replay of one encoder vector at mask coordinate `p`: write `color`
into the RGB channels and the source alpha byte into channel 3 (what the
decoder stores for an encoder-produced vector, since
`int((a/255)*255) = a` exactly in rational arithmetic). -/
def applyVecAt (img : Raster) (color : ℕ × ℕ × ℕ) (cv : Canvas) (p : ℕ × ℕ) : Canvas :=
  (cv.setRGB p.1 p.2 color).setAlpha p.1 p.2 (img.pix p.1 p.2).a

/-- Pure replay of the zero-margin plane of RGBA value `c`. -/
def replayPlane (img : Raster) (cv : Canvas) (c : RGBA) : Canvas :=
  (maskCoords img c.rgb).foldl (applyVecAt img c.rgb) cv

/-- Pure replay of the whole zero-margin document on a blank canvas. -/
def replayAll (img : Raster) : Canvas :=
  (encodeColors img).foldl (replayPlane img) (blankCanvas img.width img.height)

/-- The vector count the SPEC text predicts for a plane (§8 of the spec):
`max(1, count // max(1, count // max(1, floor(count*(1-m)))))`.  Stated from
the spec's words, to be compared with what the code produces. -/
def specStrideCount (count : ℕ) (m : ℚ) : ℕ :=
  max 1 (count / max 1 (count / max 1 (ratFloorZ ((count : ℚ) * (1 - m))).toNat))

/-- The plane-color order the SPEC text predicts: first-occurrence order of
the distinct RGB triples in the row-major scan (alpha ignored for
grouping).  Stated from the spec's words, to be compared with what the
code produces. -/
def specFirstColors (img : Raster) : List (ℕ × ℕ × ℕ) :=
  ((pixelList img).map RGBA.rgb).dedup

/-- Concrete raster: five pixels of one color (mask population 5). -/
def imgC1 : Raster := ⟨5, 1, fun _ _ => ⟨9, 9, 9, 255⟩⟩

/-- Concrete raster: color (5,0,0) occurs first in scan order, (1,0,0)
second. -/
def imgC2 : Raster := ⟨2, 1, fun _ x => if x = 0 then ⟨5, 0, 0, 255⟩ else ⟨1, 0, 0, 255⟩⟩

/-- Concrete raster: one RGB value (255,0,0) under two alpha values. -/
def imgC3 : Raster := ⟨2, 1, fun _ x => if x = 0 then ⟨255, 0, 0, 255⟩ else ⟨255, 0, 0, 128⟩⟩

/-- Concrete raster: a single pixel, used by witnesses. -/
def imgW : Raster := ⟨1, 1, fun _ _ => ⟨1, 2, 3, 4⟩⟩

/-- The one plane every encode of `imgW` produces. -/
def planeW : Plane := { color := (1, 2, 3), vectors := [vecAt imgW (0, 0)] }

/-- Concrete persisted document: complete except that `margin_error` and
the vector's `height` and `saturation` are absent. -/
def docC6 : PDoc :=
  { width := some 1, height := some 1
    planes := some [{ color := some (1, 2, 3)
                      vectors := some [{ x := some 0, y := some 0, height := none
                                         saturation := none, alpha := some 1 }] }]
    margin_error := none }

/-- Concrete persisted vector with `alpha = 0.999`. -/
def vecC7 : PVec :=
  { x := some 0, y := some 0, height := some 0, saturation := some 0
    alpha := some (999 / 1000) }

/-- The canvas `writeVec` produces from `vecC7` on a blank 1×1 canvas. -/
def cvC7 : Canvas := ((blankCanvas 1 1).setRGB 0 0 (7, 8, 9)).setAlpha 0 0 254

/-- The canvas decoding `docC6` produces. -/
def cvC6 : Canvas := ((blankCanvas 1 1).setRGB 0 0 (1, 2, 3)).setAlpha 0 0 255

/-- The canvas decoding a one-vector document on a 2×1 canvas produces:
pixel (0,1) stays transparent. -/
def cvC9 : Canvas := ((blankCanvas 2 1).setRGB 0 0 (3, 3, 3)).setAlpha 0 0 255

/-- Row-major (scan) order on `(y, x)` coordinates. -/
def rowMajorLt (p q : ℕ × ℕ) : Prop :=
  p.1 < q.1 ∨ (p.1 = q.1 ∧ p.2 < q.2)

theorem strideAux_sublist (k : ℕ) : ∀ (l : List α) (c : ℕ), (strideAux k c l).Sublist l
  | [], _ => by simp [strideAux]
  | x :: rest, 0 => by
    simpa [strideAux] using (strideAux_sublist k rest (k - 1)).cons₂ x
  | x :: rest, c + 1 => by
    simpa [strideAux] using (strideAux_sublist k rest c).cons x

theorem stride_sublist (k : ℕ) (l : List α) : (stride k l).Sublist l :=
  strideAux_sublist k l 0

theorem strideAux_eq_nil (k : ℕ) : ∀ (l : List α) (c : ℕ), l.length ≤ c → strideAux k c l = []
  | [], _, _ => rfl
  | x :: rest, c + 1, h => by
    simpa [strideAux] using strideAux_eq_nil k rest c (by simp at h; omega)

theorem strideAux_length (k : ℕ) (hk : 1 ≤ k) :
    ∀ (l : List α) (c : ℕ), (strideAux k c l).length = (l.length - c + k - 1) / k
  | [], c => by
    simp only [strideAux, List.length_nil, Nat.zero_sub, Nat.zero_add]
    exact (Nat.div_eq_of_lt (by omega)).symm
  | x :: rest, 0 => by
    have ih := strideAux_length k hk rest (k - 1)
    simp only [strideAux, List.length_cons, ih]
    have h1 : rest.length + 1 - 0 + k - 1 = rest.length + k := by omega
    have h2 : (rest.length + k) / k = rest.length / k + 1 := Nat.add_div_right _ (by omega)
    have h3 : (rest.length - (k - 1) + k - 1) / k = rest.length / k := by
      rcases Nat.le_total rest.length (k - 1) with h | h
      · have e1 : rest.length - (k - 1) = 0 := by omega
        rw [e1, Nat.div_eq_of_lt (by omega), Nat.div_eq_of_lt (by omega)]
      · congr 1; omega
    rw [h1, h2, h3]
  | x :: rest, c + 1 => by
    have ih := strideAux_length k hk rest c
    simp only [strideAux, List.length_cons, ih]
    congr 2
    omega

theorem stride_length (k : ℕ) (hk : 1 ≤ k) (l : List α) :
    (stride k l).length = (l.length + k - 1) / k := by
  have h := strideAux_length k hk l 0
  simpa [stride] using h

theorem stride_one : ∀ l : List α, stride 1 l = l
  | [] => rfl
  | x :: rest => by
    show x :: strideAux 1 (1 - 1) rest = x :: rest
    simpa using stride_one rest

theorem stride_head (k : ℕ) : ∀ l : List α, (stride k l).head? = l.head?
  | [] => rfl
  | _ :: _ => rfl

theorem stride_full (k : ℕ) : ∀ l : List α, l.length = k → stride k l = l.take 1
  | [], _ => rfl
  | x :: rest, h => by
    show x :: strideAux k (k - 1) rest = _
    rw [strideAux_eq_nil k rest (k - 1) (by simp at h; omega)]
    simp

theorem stride_ne_nil (k : ℕ) (l : List α) (h : l ≠ []) : stride k l ≠ [] := by
  cases l with
  | nil => exact absurd rfl h
  | cons x rest => exact by simp [stride, strideAux]

theorem mem_scanPositions {w h : ℕ} {p : ℕ × ℕ} :
    p ∈ scanPositions w h ↔ p.1 < h ∧ p.2 < w := by
  unfold scanPositions
  simp only [List.mem_flatMap, List.mem_map, List.mem_range]
  constructor
  · rintro ⟨y, hy, x, hx, rfl⟩
    exact ⟨hy, hx⟩
  · rintro ⟨h1, h2⟩
    exact ⟨p.1, h1, p.2, h2, rfl⟩

theorem pairwise_scanPositions (w h : ℕ) :
    (scanPositions w h).Pairwise rowMajorLt := by
  unfold scanPositions
  rw [List.pairwise_flatMap]
  constructor
  · intro y _
    rw [List.pairwise_map]
    exact (List.pairwise_lt_range w).imp fun hxy => Or.inr ⟨rfl, hxy⟩
  · refine (List.pairwise_lt_range h).imp ?_
    rintro y₁ y₂ hy p hp q hq
    simp only [List.mem_map] at hp hq
    obtain ⟨x₁, _, rfl⟩ := hp
    obtain ⟨x₂, _, rfl⟩ := hq
    exact Or.inl hy

theorem mem_maskCoords {img : Raster} {c : ℕ × ℕ × ℕ} {p : ℕ × ℕ} :
    p ∈ maskCoords img c ↔ p.1 < img.height ∧ p.2 < img.width ∧ (img.pix p.1 p.2).rgb = c := by
  unfold maskCoords
  rw [List.mem_filter]
  simp [mem_scanPositions, and_assoc]

theorem pairwise_maskCoords (img : Raster) (c : ℕ × ℕ × ℕ) :
    (maskCoords img c).Pairwise rowMajorLt :=
  (pairwise_scanPositions img.width img.height).filter _

theorem mem_pixelList {img : Raster} {c : RGBA} :
    c ∈ pixelList img ↔ ∃ y x, y < img.height ∧ x < img.width ∧ img.pix y x = c := by
  unfold pixelList
  simp only [List.mem_map]
  constructor
  · rintro ⟨p, hp, rfl⟩
    rw [mem_scanPositions] at hp
    exact ⟨p.1, p.2, hp.1, hp.2, rfl⟩
  · rintro ⟨y, x, h1, h2, h3⟩
    exact ⟨(y, x), mem_scanPositions.mpr ⟨h1, h2⟩, h3⟩

theorem mem_encodeColors {img : Raster} {c : RGBA} :
    c ∈ encodeColors img ↔ c ∈ pixelList img := by
  unfold encodeColors
  rw [List.mem_insertionSort, List.mem_dedup]

theorem nodup_encodeColors (img : Raster) : (encodeColors img).Nodup :=
  ((List.perm_insertionSort lexLe _).nodup_iff).mpr ((pixelList img).nodup_dedup)

theorem sorted_encodeColors (img : Raster) : List.Sorted lexLe (encodeColors img) :=
  List.sorted_insertionSort lexLe _

theorem RGBA.eq_of_parts {c d : RGBA} (h1 : c.r = d.r) (h2 : c.g = d.g)
    (h3 : c.b = d.b) (h4 : c.a = d.a) : c = d := by
  cases c; cases d; simp_all

theorem lexLt_of_lexLe_ne {c d : RGBA} (hle : lexLe c d) (hne : c ≠ d) : lexLt c d := by
  unfold lexLe at hle
  unfold lexLt
  rcases hle with h | ⟨hr, h⟩
  · exact Or.inl h
  rcases h with h | ⟨hg, h⟩
  · exact Or.inr ⟨hr, Or.inl h⟩
  rcases h with h | ⟨hb, h⟩
  · exact Or.inr ⟨hr, Or.inr ⟨hg, Or.inl h⟩⟩
  rcases Nat.lt_or_ge c.a d.a with h4 | h4
  · exact Or.inr ⟨hr, Or.inr ⟨hg, Or.inr ⟨hb, h4⟩⟩⟩
  · exact absurd (RGBA.eq_of_parts hr hg hb (Nat.le_antisymm h h4)) hne

theorem pairwise_lexLt_encodeColors (img : Raster) :
    (encodeColors img).Pairwise lexLt := by
  have h1 : (encodeColors img).Pairwise lexLe := sorted_encodeColors img
  have h2 : (encodeColors img).Pairwise (· ≠ ·) := nodup_encodeColors img
  exact (h1.and h2).imp fun h => lexLt_of_lexLe_ne h.1 h.2

theorem maskCoords_rgb_ne_nil {img : Raster} {c : RGBA} (hc : c ∈ encodeColors img) :
    maskCoords img c.rgb ≠ [] := by
  rw [mem_encodeColors, mem_pixelList] at hc
  obtain ⟨y, x, h1, h2, h3⟩ := hc
  intro hnil
  have hmem : (y, x) ∈ maskCoords img c.rgb :=
    mem_maskCoords.mpr ⟨h1, h2, by rw [h3]⟩
  rw [hnil] at hmem
  exact absurd hmem (List.not_mem_nil _)

theorem planeFor_of_ne_nil {img : Raster} {m : ℚ} {c : RGBA}
    (hne : maskCoords img c.rgb ≠ []) :
    planeFor img m c =
      some { color := c.rgb
             vectors := (stride (strideFor m (maskCount img c.rgb))
                          (maskCoords img c.rgb)).map (vecAt img) } := by
  unfold planeFor maskCount
  rw [if_neg (by simpa using hne)]

theorem mem_encode_planes {img : Raster} {m : ℚ} {p : Plane} :
    p ∈ (encode img m).planes ↔ ∃ c ∈ encodeColors img, planeFor img m c = some p := by
  unfold encode
  rw [List.mem_filterMap]

theorem pyInt_natCast (n : ℕ) : pyInt (n : ℚ) = n := by
  simp [pyInt, Rat.num_natCast, Rat.den_natCast]

theorem numVectorsFor_zero (count : ℕ) : numVectorsFor 0 count = max 1 count := by
  unfold numVectorsFor
  rw [sub_zero, mul_one, pyInt_natCast]
  simp

theorem strideFor_pos (m : ℚ) (count : ℕ) : 1 ≤ strideFor m count :=
  Nat.le_max_left 1 _

theorem strideFor_zero (count : ℕ) (h : 1 ≤ count) : strideFor 0 count = 1 := by
  unfold strideFor
  rw [numVectorsFor_zero, Nat.max_eq_right h, Nat.div_self (by omega), Nat.max_self]

theorem numVectorsFor_one (count : ℕ) : numVectorsFor 1 count = 1 := by
  unfold numVectorsFor
  rw [sub_self, mul_zero]
  simp [pyInt]

theorem strideFor_one (count : ℕ) : strideFor 1 count = max 1 count := by
  unfold strideFor
  rw [numVectorsFor_one, Nat.div_one]

theorem encode_plane_eq {img : Raster} {m : ℚ} {p : Plane}
    (hp : p ∈ (encode img m).planes) :
    ∃ c ∈ encodeColors img, maskCoords img c.rgb ≠ [] ∧
      p = { color := c.rgb
            vectors := (stride (strideFor m (maskCount img c.rgb))
                         (maskCoords img c.rgb)).map (vecAt img) } := by
  rw [mem_encode_planes] at hp
  obtain ⟨c, hc, hpc⟩ := hp
  have hne := maskCoords_rgb_ne_nil hc
  rw [planeFor_of_ne_nil hne] at hpc
  exact ⟨c, hc, hne, (Option.some.inj hpc).symm⟩

theorem filterMap_eq_map_of_forall {f : α → Option β} {g : α → β} :
    ∀ {l : List α}, (∀ a ∈ l, f a = some (g a)) → l.filterMap f = l.map g
  | [], _ => rfl
  | a :: l, h => by
    rw [List.filterMap_cons, h a (List.mem_cons_self a l), List.map_cons,
      filterMap_eq_map_of_forall fun b hb => h b (List.mem_cons_of_mem a hb)]

theorem encode_planes_map_color (img : Raster) (m : ℚ) :
    (encode img m).planes.map Plane.color = (encodeColors img).map RGBA.rgb := by
  have h : (encode img m).planes =
      (encodeColors img).map fun c =>
        ({ color := c.rgb
           vectors := (stride (strideFor m (maskCount img c.rgb))
                        (maskCoords img c.rgb)).map (vecAt img) } : Plane) := by
    show (encodeColors img).filterMap (planeFor img m) = _
    exact filterMap_eq_map_of_forall fun c hc =>
      planeFor_of_ne_nil (maskCoords_rgb_ne_nil hc)
  rw [h, List.map_map]
  rfl

theorem map_coords_vecAt (img : Raster) (l : List (ℕ × ℕ)) :
    ((l.map (vecAt img)).map fun v => (v.y, v.x)) = l := by
  induction l with
  | nil => rfl
  | cons a l ih => simp only [List.map_cons, ih, vecAt]

/-- C1: the claim's stride formula `max(1, count // max(1, count // max(1,
floor(count*(1-m)))))` is falsified by the code: a 5-pixel single-color
raster at `m = 1/2` yields a plane of mask population 5 with 3 vectors,
while the formula predicts 2. -/
theorem C1_spec_formula_counterexample :
    (encode imgC1 (1/2)).planes.map (fun p => p.vectors.length) = [3] ∧
    (encode imgC1 (1/2)).planes.map (fun p => maskCount imgC1 p.color) = [5] ∧
    specStrideCount 5 (1/2) = 2 := by
  with_unfolding_all decide

/-- C1 (amended): for every plane of `encode` with mask population `count`
and stride `k = max(1, count // max(1, int(count*(1-m))))`, the number of
stored vectors is `ceil(count / k) = (count + k - 1) // k` (the slice
`mask_indices[::k]` keeps indices `0, k, 2k, …`), not the floor-division
value the spec states. -/
theorem C1_stride_count_amended (img : Raster) (m : ℚ) (h0 : 0 ≤ m) (h1 : m ≤ 1)
    (p : Plane) (hp : p ∈ (encode img m).planes) :
    p.vectors.length =
      (maskCount img p.color + strideFor m (maskCount img p.color) - 1) /
        strideFor m (maskCount img p.color) := by
  obtain ⟨c, hc, hne, rfl⟩ := encode_plane_eq hp
  dsimp only
  rw [List.length_map, stride_length _ (strideFor_pos m _)]
  rfl

/-- C1 witness: the amended count formula applied to the one-pixel raster
`imgW` at `m = 1/2`. -/
theorem C1_stride_count_witness :
    (0 : ℚ) ≤ 1/2 ∧ (1/2 : ℚ) ≤ 1 ∧ planeW ∈ (encode imgW (1/2)).planes ∧
    planeW.vectors.length =
      (maskCount imgW planeW.color + strideFor (1/2) (maskCount imgW planeW.color) - 1) /
        strideFor (1/2) (maskCount imgW planeW.color) :=
  ⟨by norm_num, by norm_num, by with_unfolding_all decide,
    C1_stride_count_amended imgW (1/2) (by norm_num) (by norm_num) planeW
      (by with_unfolding_all decide)⟩

/-- C2: the claim that planes appear in first-occurrence order is falsified:
in `imgC2` the color (5,0,0) occurs before (1,0,0) in the scan, but the
encoded planes are ordered [(1,0,0), (5,0,0)] (`np.unique` sorts). -/
theorem C2_first_occurrence_counterexample :
    (encode imgC2 0).planes.map Plane.color = [(1, 0, 0), (5, 0, 0)] ∧
    specFirstColors imgC2 = [(5, 0, 0), (1, 0, 0)] := by
  with_unfolding_all decide

/-- C2 (amended): the planes of `encode` appear in ascending lexicographic
order of the distinct RGBA values of the raster (the sorted order of
`np.unique`), one plane per distinct RGBA value, not in first-occurrence
order. -/
theorem C2_planes_sorted_amended (img : Raster) (m : ℚ) :
    (encodeColors img).Pairwise lexLt ∧
    (∀ c, c ∈ encodeColors img ↔ ∃ y x, y < img.height ∧ x < img.width ∧ img.pix y x = c) ∧
    (encode img m).planes.map Plane.color = (encodeColors img).map RGBA.rgb :=
  ⟨pairwise_lexLt_encodeColors img,
   fun _ => mem_encodeColors.trans mem_pixelList,
   encode_planes_map_color img m⟩

/-- C3: the claim that no two planes share an (R,G,B) color even when equal
RGB occurs under different alphas is falsified: `imgC3` has RGB (255,0,0)
under alphas 255 and 128, and the encoder emits two planes both colored
(255,0,0). -/
theorem C3_shared_color_counterexample :
    (encode imgC3 0).planes.map Plane.color = [(255, 0, 0), (255, 0, 0)] ∧
    ¬ ((encode imgC3 0).planes.map Plane.color).Nodup := by
  with_unfolding_all decide

/-- C3 (amended): if every two pixels of the raster that agree on RGB also
agree on alpha, then no two planes of the encoded document share a color.
(`np.unique` runs on full RGBA rows, so an RGB value occurring under
several alphas yields several identically-colored planes.) -/
theorem C3_color_unique_amended (img : Raster) (m : ℚ)
    (hdet : ∀ y x v u, y < img.height → x < img.width → v < img.height → u < img.width →
      (img.pix y x).rgb = (img.pix v u).rgb → (img.pix y x).a = (img.pix v u).a) :
    ((encode img m).planes.map Plane.color).Nodup := by
  rw [encode_planes_map_color]
  refine (nodup_encodeColors img).map_on ?_
  intro c1 hc1 c2 hc2 hrgb
  obtain ⟨y, x, hy, hx, hpix1⟩ := mem_pixelList.mp (mem_encodeColors.mp hc1)
  obtain ⟨v, u, hv, hu, hpix2⟩ := mem_pixelList.mp (mem_encodeColors.mp hc2)
  have hr : c1.r = c2.r := congrArg Prod.fst hrgb
  have hg : c1.g = c2.g := congrArg (fun t => t.2.1) hrgb
  have hb : c1.b = c2.b := congrArg (fun t => t.2.2) hrgb
  have ha : c1.a = c2.a := by
    have := hdet y x v u hy hx hv hu (by rw [hpix1, hpix2, hrgb])
    rwa [hpix1, hpix2] at this
  exact RGBA.eq_of_parts hr hg hb ha

/-- C3 witness: the amended uniqueness statement applied to the one-pixel
raster `imgW`, whose RGB trivially determines its alpha. -/
theorem C3_color_unique_witness :
    (∀ y x v u, y < imgW.height → x < imgW.width → v < imgW.height → u < imgW.width →
      (imgW.pix y x).rgb = (imgW.pix v u).rgb → (imgW.pix y x).a = (imgW.pix v u).a) ∧
    ((encode imgW 0).planes.map Plane.color).Nodup :=
  ⟨fun _ _ _ _ _ _ _ _ _ => rfl,
   C3_color_unique_amended imgW 0 (fun _ _ _ _ _ _ _ _ _ => rfl)⟩

/-- C8: at `margin_error = 0` every plane keeps every masked pixel, and at
`margin_error = 1` every plane keeps exactly one vector, the scan-order
first masked pixel. -/
theorem C8_margin_extremes (img : Raster)
    (p0 : Plane) (hp0 : p0 ∈ (encode img 0).planes)
    (p1 : Plane) (hp1 : p1 ∈ (encode img 1).planes) :
    p0.vectors = (maskCoords img p0.color).map (vecAt img) ∧
    p1.vectors = ((maskCoords img p1.color).take 1).map (vecAt img) ∧
    p1.vectors.length = 1 := by
  obtain ⟨c0, hc0, hne0, rfl⟩ := encode_plane_eq hp0
  obtain ⟨c1, hc1, hne1, rfl⟩ := encode_plane_eq hp1
  dsimp only
  have hcount0 : 1 ≤ maskCount img c0.rgb := by
    have := List.length_pos.mpr hne0
    simpa [maskCount] using this
  have hcount1 : 1 ≤ maskCount img c1.rgb := by
    have := List.length_pos.mpr hne1
    simpa [maskCount] using this
  refine ⟨?_, ?_, ?_⟩
  · rw [strideFor_zero _ hcount0, stride_one]
  · rw [strideFor_one, Nat.max_eq_right hcount1,
      stride_full (maskCount img c1.rgb) (maskCoords img c1.rgb) rfl]
  · rw [strideFor_one, Nat.max_eq_right hcount1,
      stride_full (maskCount img c1.rgb) (maskCoords img c1.rgb) rfl,
      List.length_map, List.length_take]
    have h2 : 1 ≤ (maskCoords img c1.rgb).length := hcount1
    omega

/-- C8 witness: both extreme margins evaluated on the one-pixel raster
`imgW`, whose single plane is `planeW` at both margins. -/
theorem C8_margin_extremes_witness :
    planeW ∈ (encode imgW 0).planes ∧ planeW ∈ (encode imgW 1).planes ∧
    (planeW.vectors = (maskCoords imgW planeW.color).map (vecAt imgW) ∧
     planeW.vectors = ((maskCoords imgW planeW.color).take 1).map (vecAt imgW) ∧
     planeW.vectors.length = 1) :=
  ⟨by with_unfolding_all decide, by with_unfolding_all decide,
   C8_margin_extremes imgW planeW (by with_unfolding_all decide)
     planeW (by with_unfolding_all decide)⟩

/-- C10: for every margin in [0,1], every plane of `encode` holds at least
one vector; the vector coordinates form an order-preserving sublist of the
plane's row-major mask-coordinate list, are strictly increasing in
row-major order (hence pairwise distinct), and start with the scan-order
first pixel of the plane's color. -/
theorem C10_vector_invariants (img : Raster) (m : ℚ) (h0 : 0 ≤ m) (h1 : m ≤ 1)
    (p : Plane) (hp : p ∈ (encode img m).planes) :
    p.vectors ≠ [] ∧
    (p.vectors.map fun v => (v.y, v.x)).Sublist (maskCoords img p.color) ∧
    (p.vectors.map fun v => (v.y, v.x)).Pairwise rowMajorLt ∧
    (p.vectors.map fun v => (v.y, v.x)).head? = (maskCoords img p.color).head? := by
  obtain ⟨c, hc, hne, rfl⟩ := encode_plane_eq hp
  dsimp only
  rw [map_coords_vecAt]
  refine ⟨?_, stride_sublist _ _, ?_, stride_head _ _⟩
  · intro hnil
    exact stride_ne_nil _ _ hne (by simpa using congrArg List.length hnil)
  · exact (pairwise_maskCoords img c.rgb).sublist (stride_sublist _ _)

/-- C10 witness: the invariants applied to the one-pixel raster `imgW` at
`m = 0`. -/
theorem C10_vector_invariants_witness :
    (0 : ℚ) ≤ 0 ∧ (0 : ℚ) ≤ 1 ∧ planeW ∈ (encode imgW 0).planes ∧
    (planeW.vectors ≠ [] ∧
     (planeW.vectors.map fun v => (v.y, v.x)).Sublist (maskCoords imgW planeW.color) ∧
     (planeW.vectors.map fun v => (v.y, v.x)).Pairwise rowMajorLt ∧
     (planeW.vectors.map fun v => (v.y, v.x)).head? = (maskCoords imgW planeW.color).head?) :=
  ⟨le_refl 0, by norm_num, by with_unfolding_all decide,
   C10_vector_invariants imgW 0 (le_refl 0) (by norm_num) planeW
     (by with_unfolding_all decide)⟩

theorem ok_bind {a : α} (f : α → Except DecodeErr β) :
    (Except.ok a >>= f : Except DecodeErr β) = f a := rfl

theorem error_bind (e : DecodeErr) (f : α → Except DecodeErr β) :
    ((Except.error e : Except DecodeErr α) >>= f) = .error e := rfl

theorem exceptBind_ok {x : Except DecodeErr α} {f : α → Except DecodeErr β} {b : β}
    (h : (x >>= f) = .ok b) : ∃ a, x = .ok a ∧ f a = .ok b := by
  cases x with
  | error e => exact Except.noConfusion ((error_bind e f) ▸ h)
  | ok a => exact ⟨a, rfl, (ok_bind f) ▸ h⟩

theorem getField_ok {o : Option α} {a : α} (h : getField o = .ok a) : o = some a := by
  cases o with
  | none => exact Except.noConfusion h
  | some b => exact congrArg some (Except.ok.inj h)

theorem foldlM_ok_mem {f : β → α → Except DecodeErr β} :
    ∀ {l : List α} {b0 b : β}, l.foldlM f b0 = .ok b → ∀ a ∈ l, ∃ s t, f s a = .ok t
  | [], _, _, _, a, ha => absurd ha (List.not_mem_nil a)
  | x :: l, b0, b, h, a, ha => by
    rw [List.foldlM_cons] at h
    obtain ⟨b1, hb1, hrest⟩ := exceptBind_ok h
    rcases List.mem_cons.mp ha with rfl | ha2
    · exact ⟨b0, b1, hb1⟩
    · exact foldlM_ok_mem hrest a ha2

theorem writeVec_ok_fields {w h : ℕ} {color : ℕ × ℕ × ℕ} {cv : Canvas} {v : PVec}
    {cv2 : Canvas} (hok : writeVec w h color cv v = .ok cv2) :
    v.x.isSome ∧ v.y.isSome ∧ v.alpha.isSome := by
  unfold writeVec at hok
  obtain ⟨x, hx, hok⟩ := exceptBind_ok hok
  obtain ⟨y, hy, hok⟩ := exceptBind_ok hok
  rcases hyi : npIndex h y with _ | yi <;> rw [hyi] at hok
  · exact Except.noConfusion hok
  rcases hxi : npIndex w x with _ | xi <;> rw [hxi] at hok
  · exact Except.noConfusion hok
  dsimp only at hok
  split at hok
  · obtain ⟨a, ha, hok⟩ := exceptBind_ok hok
    refine ⟨?_, ?_, ?_⟩
    · rw [getField_ok hx]; rfl
    · rw [getField_ok hy]; rfl
    · rw [getField_ok ha]; rfl
  · exact Except.noConfusion hok

theorem writePlane_ok_fields {w h : ℕ} {cv : Canvas} {p : PPlane} {cv2 : Canvas}
    (hok : writePlane w h cv p = .ok cv2) :
    p.color.isSome ∧ p.vectors.isSome ∧
      ∀ vs, p.vectors = some vs → ∀ v ∈ vs, v.x.isSome ∧ v.y.isSome ∧ v.alpha.isSome := by
  unfold writePlane at hok
  obtain ⟨color, hc, hok⟩ := exceptBind_ok hok
  obtain ⟨vl, hvl, hok⟩ := exceptBind_ok hok
  refine ⟨by rw [getField_ok hc]; rfl, by rw [getField_ok hvl]; rfl, ?_⟩
  intro vs hvs v hv
  rw [getField_ok hvl] at hvs
  obtain rfl := Option.some.inj hvs
  obtain ⟨s, t, hst⟩ := foldlM_ok_mem hok v hv
  exact writeVec_ok_fields hst

theorem anyAlphaLt255_iff {cv : Canvas} :
    anyAlphaLt255 cv = true ↔
      ∃ y, y < cv.height ∧ ∃ x, x < cv.width ∧ cv.alphaEntry y x < 255 := by
  unfold anyAlphaLt255
  simp [List.any_eq_true, List.mem_range]

theorem npIndex_eq_none {n : ℕ} {i : ℤ} :
    npIndex n i = none ↔ ¬ (-(n : ℤ) ≤ i ∧ i < (n : ℤ)) := by
  unfold npIndex
  split_ifs with h1 h2
  · constructor
    · intro h; exact absurd h (by simp)
    · intro h; exact absurd ⟨by omega, h1.2⟩ h
  · constructor
    · intro h; exact absurd h (by simp)
    · intro h; exact absurd ⟨h2.1, by omega⟩ h
  · constructor
    · intro _; omega
    · intro _; rfl

theorem npIndex_nonneg {n : ℕ} {i : ℤ} (h0 : 0 ≤ i) (h1 : i < (n : ℤ)) :
    npIndex n i = some i.toNat := by
  unfold npIndex
  rw [if_pos ⟨h0, h1⟩]

theorem npIndex_neg {n : ℕ} {i : ℤ} (h0 : -(n : ℤ) ≤ i) (h1 : i < 0) :
    npIndex n i = some (i + (n : ℤ)).toNat := by
  unfold npIndex
  rw [if_neg (by omega), if_pos ⟨h0, h1⟩]

/-- C5: the claim that any out-of-range coordinate (including negative)
makes decode fail is falsified: a vector with `x = -1` on a 1×1 canvas
decodes successfully (numpy wraps negative indices), writing its color at
column 0. -/
theorem C5_wrap_counterexample :
    decodeFmt (mkDoc1 1 1 (7, 8, 9) (-1) 0 0 0 1) = some Fmt.rgb ∧
    decodeRGBAt (mkDoc1 1 1 (7, 8, 9) (-1) 0 0 0 1) 0 0 = some (7, 8, 9) := by
  with_unfolding_all decide

/-- C5 (amended): decode of a one-vector document fails with OutOfBounds
exactly when a coordinate lies outside `[-size, size)` (for example
`x == width`), while a negative coordinate in `[-size, 0)` is silently
wrapped by numpy to `coordinate + size` and decoding succeeds. -/
theorem C5_bounds_amended (w h : ℕ) (c : ℕ × ℕ × ℕ) (x y : ℤ) (hv sv av : ℚ) :
    ((¬ (-(h : ℤ) ≤ y ∧ y < (h : ℤ)) ∨ ¬ (-(w : ℤ) ≤ x ∧ x < (w : ℤ))) →
      decode (mkDoc1 w h c x y hv sv av) = .error .outOfBounds) ∧
    (0 ≤ y → y < (h : ℤ) → -(w : ℤ) ≤ x → x < 0 →
      byteOk c.1 → byteOk c.2.1 → byteOk c.2.2 → byteOk (pyInt (av * 255)) →
      decodeRGBAt (mkDoc1 w h c x y hv sv av) y.toNat (x + (w : ℤ)).toNat = some c) := by
  constructor
  · intro hor
    unfold decode mkDoc1
    simp only [getField, ok_bind, List.foldlM_cons, List.foldlM_nil]
    unfold writePlane
    simp only [getField, ok_bind, List.foldlM_cons, List.foldlM_nil]
    unfold writeVec
    simp only [getField, ok_bind]
    rcases hor with hy | hx
    · rw [npIndex_eq_none.mpr hy]
      rfl
    · rcases hni : npIndex h y with _ | yi
      · rfl
      · rw [npIndex_eq_none.mpr hx]
        rfl
  · intro h0 h1 h2 h3 hb1 hb2 hb3 hba
    unfold decodeRGBAt decode mkDoc1
    simp only [getField, ok_bind, List.foldlM_cons, List.foldlM_nil]
    unfold writePlane
    simp only [getField, ok_bind, List.foldlM_cons, List.foldlM_nil]
    unfold writeVec
    simp only [getField, ok_bind]
    rw [npIndex_nonneg h0 h1, npIndex_neg h2 h3]
    simp only [if_pos (show byteOk c.1 ∧ byteOk c.2.1 ∧ byteOk c.2.2 from ⟨hb1, hb2, hb3⟩),
      getField, ok_bind, if_pos hba]
    simp only [List.foldlM_nil, pure, Except.pure, ok_bind]
    split
    · simp [Canvas.setAlpha, Canvas.setRGB, Except.toOption]
    · simp [Canvas.setAlpha, Canvas.setRGB, Except.toOption]

/-- C5 witness: on a 1×1 canvas, `x = 2` fails with OutOfBounds while
`x = -1` wraps to column 0. -/
theorem C5_bounds_witness :
    decode (mkDoc1 1 1 (7, 8, 9) 2 0 0 0 1) = .error .outOfBounds ∧
    decodeRGBAt (mkDoc1 1 1 (7, 8, 9) (-1) 0 0 0 1) 0 0 = some (7, 8, 9) := by
  constructor
  · exact (C5_bounds_amended 1 1 (7, 8, 9) 2 0 0 0 1).1 (Or.inr (by decide))
  · exact (C5_bounds_amended 1 1 (7, 8, 9) (-1) 0 0 0 1).2 (by decide) (by decide)
      (by decide) (by decide) (by decide) (by decide) (by decide)
      (by with_unfolding_all decide)

/-- C6: the claim that a missing `margin_error`, vector `height` or vector
`saturation` makes deserialization fail is falsified: `docC6` lacks all
three and still decodes successfully (the decoder never reads them). -/
theorem C6_missing_fields_counterexample :
    docC6.margin_error = none ∧
    decodeRGBAt docC6 0 0 = some (1, 2, 3) ∧
    decodeFmt docC6 = some Fmt.rgb := by
  with_unfolding_all decide

/-- C6 (amended): whenever decode succeeds, every field it actually reads
was present: `width`, `height`, `planes`, each plane's `color` and
`vectors`, and each vector's `x`, `y` and `alpha`; so the absence of any
of those makes decode fail.  `margin_error` and a vector's `height` and
`saturation` are never read, and their absence is silently accepted. -/
theorem C6_required_fields_amended (d : PDoc) (cv : Canvas) (fmt : Fmt)
    (hok : decode d = .ok (cv, fmt)) :
    d.width.isSome ∧ d.height.isSome ∧ d.planes.isSome ∧
    ∀ ps, d.planes = some ps → ∀ p ∈ ps, p.color.isSome ∧ p.vectors.isSome ∧
      ∀ vs, p.vectors = some vs → ∀ v ∈ vs,
        v.x.isSome ∧ v.y.isSome ∧ v.alpha.isSome := by
  unfold decode at hok
  obtain ⟨w, hw, hok⟩ := exceptBind_ok hok
  obtain ⟨h, hh, hok⟩ := exceptBind_ok hok
  obtain ⟨ps0, hps, hok⟩ := exceptBind_ok hok
  obtain ⟨cv1, hcv1, _⟩ := exceptBind_ok hok
  refine ⟨by rw [getField_ok hw]; rfl, by rw [getField_ok hh]; rfl,
    by rw [getField_ok hps]; rfl, ?_⟩
  intro ps hps2 p hp
  rw [getField_ok hps] at hps2
  obtain rfl := Option.some.inj hps2
  obtain ⟨s, t, hst⟩ := foldlM_ok_mem hcv1 p hp
  exact writePlane_ok_fields hst

/-- C6 witness: the amended statement applied to `docC6`, which decodes
successfully. -/
theorem C6_required_fields_witness :
    decode docC6 = .ok (cvC6, Fmt.rgb) ∧
    (docC6.width.isSome ∧ docC6.height.isSome ∧ docC6.planes.isSome ∧
     ∀ ps, docC6.planes = some ps → ∀ p ∈ ps, p.color.isSome ∧ p.vectors.isSome ∧
       ∀ vs, p.vectors = some vs → ∀ v ∈ vs,
         v.x.isSome ∧ v.y.isSome ∧ v.alpha.isSome) := by
  have hok : decode docC6 = .ok (cvC6, Fmt.rgb) := by with_unfolding_all rfl
  exact ⟨hok, C6_required_fields_amended docC6 cvC6 Fmt.rgb hok⟩

/-- C7: the claim that decode rounds `alpha * 255` to the nearest integer
is falsified: for `alpha = 0.999` the canvas receives `int(0.999*255) =
254`, while rounding to nearest would give 255. -/
theorem C7_round_counterexample :
    decodeAlphaAt (mkDoc1 1 1 (7, 8, 9) 0 0 0 0 (999 / 1000)) 0 0 = some 254 ∧
    round ((999 / 1000 : ℚ) * 255) = 255 :=
  ⟨by with_unfolding_all decide, by norm_num [round_eq]⟩

/-- C7 (amended): each vector write stores the plane's RGB at the resolved
canvas cell and stores `int(alpha * 255)` — truncation toward zero, not
rounding to nearest — in the alpha channel. -/
theorem C7_trunc_write_amended (w h : ℕ) (color : ℕ × ℕ × ℕ) (cv : Canvas) (v : PVec)
    (x y : ℤ) (a : ℚ) (yi xi : ℕ) (cv2 : Canvas)
    (hx : v.x = some x) (hy : v.y = some y) (ha : v.alpha = some a)
    (hyi : npIndex h y = some yi) (hxi : npIndex w x = some xi)
    (hok : writeVec w h color cv v = .ok cv2) :
    cv2.rgbEntry yi xi = color ∧ (cv2.alphaEntry yi xi : ℤ) = pyInt (a * 255) := by
  unfold writeVec at hok
  rw [hx, hy] at hok
  simp only [getField, ok_bind, hyi, hxi] at hok
  split at hok
  · rw [ha] at hok
    simp only [getField, ok_bind] at hok
    split at hok
    case isTrue hb =>
      obtain rfl : ((cv.setRGB yi xi color).setAlpha yi xi (pyInt (a * 255)).toNat) = cv2 :=
        Except.ok.inj hok
      constructor
      · simp [Canvas.setAlpha, Canvas.setRGB]
      · simp [Canvas.setAlpha, Canvas.setRGB, Int.toNat_of_nonneg hb.1]
    case isFalse => exact Except.noConfusion hok
  · exact Except.noConfusion hok

/-- C7 witness: the truncating write applied to `vecC7` (alpha 0.999) on a
blank 1×1 canvas. -/
theorem C7_trunc_write_witness :
    vecC7.x = some 0 ∧ vecC7.y = some 0 ∧ vecC7.alpha = some (999 / 1000) ∧
    npIndex 1 0 = some 0 ∧
    writeVec 1 1 (7, 8, 9) (blankCanvas 1 1) vecC7 = .ok cvC7 ∧
    (cvC7.rgbEntry 0 0 = (7, 8, 9) ∧ (cvC7.alphaEntry 0 0 : ℤ) = pyInt ((999 / 1000) * 255)) := by
  have h4 : npIndex 1 0 = some 0 := by decide
  have h6 : writeVec 1 1 (7, 8, 9) (blankCanvas 1 1) vecC7 = .ok cvC7 := by
    with_unfolding_all rfl
  exact ⟨rfl, rfl, rfl, h4, h6,
    C7_trunc_write_amended 1 1 (7, 8, 9) (blankCanvas 1 1) vecC7 0 0 (999 / 1000)
      0 0 cvC7 rfl rfl rfl h4 h4 h6⟩

/-- C9: decode chooses the alpha-preserving (RGBA) output exactly when some
canvas cell still has alpha below 255 after all vectors are replayed;
otherwise it drops alpha and outputs opaque RGB. -/
theorem C9_format_selection (d : PDoc) (cv : Canvas) (fmt : Fmt)
    (hok : decode d = .ok (cv, fmt)) :
    (fmt = Fmt.rgba ↔ ∃ y, y < cv.height ∧ ∃ x, x < cv.width ∧ cv.alphaEntry y x < 255) := by
  unfold decode at hok
  obtain ⟨w, hw, hok⟩ := exceptBind_ok hok
  obtain ⟨h, hh, hok⟩ := exceptBind_ok hok
  obtain ⟨ps0, hps, hok⟩ := exceptBind_ok hok
  obtain ⟨cv1, hcv1, hok⟩ := exceptBind_ok hok
  split at hok
  case isTrue hany =>
    obtain heq := Except.ok.inj hok
    obtain rfl : cv1 = cv := congrArg Prod.fst heq
    obtain rfl : Fmt.rgba = fmt := congrArg Prod.snd heq
    simp only [true_iff]
    exact anyAlphaLt255_iff.mp hany
  case isFalse hany =>
    obtain heq := Except.ok.inj hok
    obtain rfl : cv1 = cv := congrArg Prod.fst heq
    obtain rfl : Fmt.rgb = fmt := congrArg Prod.snd heq
    constructor
    · intro hcontra; exact Fmt.noConfusion hcontra
    · intro hex
      exact absurd (anyAlphaLt255_iff.mpr hex) (by simpa using hany)

/-- C9 witness: a one-vector document on a 2×1 canvas leaves pixel (0,1)
transparent and decodes to RGBA format. -/
theorem C9_format_selection_witness :
    decode (mkDoc1 2 1 (3, 3, 3) 0 0 0 0 1) = .ok (cvC9, Fmt.rgba) ∧
    (Fmt.rgba = Fmt.rgba ↔
      ∃ y, y < cvC9.height ∧ ∃ x, x < cvC9.width ∧ cvC9.alphaEntry y x < 255) := by
  have hok : decode (mkDoc1 2 1 (3, 3, 3) 0 0 0 0 1) = .ok (cvC9, Fmt.rgba) := by
    with_unfolding_all rfl
  exact ⟨hok, C9_format_selection _ cvC9 Fmt.rgba hok⟩

theorem alpha_byte_exact (n : ℕ) : pyInt ((n : ℚ) / 255 * 255) = n := by
  have h : ((n : ℚ) / 255 * 255) = (n : ℚ) := by
    field_simp
  rw [h, pyInt_natCast]

theorem writeVec_vecAt (img : Raster) (w h : ℕ) (color : ℕ × ℕ × ℕ) (cv : Canvas)
    (yy xx : ℕ) (hyy : yy < h) (hxx : xx < w)
    (hc : byteOk color.1 ∧ byteOk color.2.1 ∧ byteOk color.2.2)
    (ha : (img.pix yy xx).a ≤ 255) :
    writeVec w h color cv (Vec.toPersist (vecAt img (yy, xx))) =
      .ok (applyVecAt img color cv (yy, xx)) := by
  unfold writeVec Vec.toPersist vecAt applyVecAt
  simp only [getField, ok_bind]
  rw [npIndex_nonneg (Int.natCast_nonneg yy) (by exact_mod_cast hyy),
    npIndex_nonneg (Int.natCast_nonneg xx) (by exact_mod_cast hxx)]
  simp only [Int.toNat_natCast]
  rw [if_pos hc]
  simp only [getField, ok_bind, alpha_byte_exact]
  rw [if_pos (show byteOk ((img.pix (yy, xx).1 (yy, xx).2).a : ℤ) from
    ⟨Int.natCast_nonneg _, by exact_mod_cast ha⟩)]
  simp [Int.toNat_natCast]

theorem foldlM_writeVec_eq_foldl (img : Raster) (w h : ℕ) (color : ℕ × ℕ × ℕ)
    (hc : byteOk color.1 ∧ byteOk color.2.1 ∧ byteOk color.2.2) :
    ∀ (l : List (ℕ × ℕ)) (cv : Canvas),
      (∀ p ∈ l, p.1 < h ∧ p.2 < w ∧ (img.pix p.1 p.2).a ≤ 255) →
      (l.map fun p => Vec.toPersist (vecAt img p)).foldlM (writeVec w h color) cv =
        .ok (l.foldl (applyVecAt img color) cv)
  | [], cv, _ => rfl
  | p :: l, cv, hall => by
    obtain ⟨h1, h2, h3⟩ := hall p (List.mem_cons_self p l)
    rw [List.map_cons, List.foldlM_cons, List.foldl_cons]
    rw [show writeVec w h color cv (Vec.toPersist (vecAt img p)) =
        .ok (applyVecAt img color cv p) from by
      obtain ⟨py, px⟩ := p
      exact writeVec_vecAt img w h color cv py px h1 h2 hc h3]
    rw [ok_bind]
    exact foldlM_writeVec_eq_foldl img w h color hc l _
      fun q hq => hall q (List.mem_cons_of_mem p hq)

theorem writePlane_encode (img : Raster)
    (hb : ∀ y x, y < img.height → x < img.width →
      (img.pix y x).r ≤ 255 ∧ (img.pix y x).g ≤ 255 ∧
      (img.pix y x).b ≤ 255 ∧ (img.pix y x).a ≤ 255)
    (c : RGBA) (hc : c ∈ encodeColors img) (cv : Canvas) :
    writePlane img.width img.height cv
      (Plane.toPersist { color := c.rgb
                         vectors := (maskCoords img c.rgb).map (vecAt img) }) =
      .ok (replayPlane img cv c) := by
  obtain ⟨y0, x0, hy0, hx0, hpix0⟩ := mem_pixelList.mp (mem_encodeColors.mp hc)
  have hcb : byteOk (c.rgb.1 : ℤ) ∧ byteOk (c.rgb.2.1 : ℤ) ∧ byteOk (c.rgb.2.2 : ℤ) := by
    obtain ⟨hr, hg, hb2, _⟩ := hb y0 x0 hy0 hx0
    rw [← hpix0]
    exact ⟨⟨Int.natCast_nonneg _, by exact_mod_cast hr⟩,
      ⟨Int.natCast_nonneg _, by exact_mod_cast hg⟩,
      ⟨Int.natCast_nonneg _, by exact_mod_cast hb2⟩⟩
  unfold writePlane Plane.toPersist
  simp only [getField, ok_bind, List.map_map]
  rw [show ((maskCoords img c.rgb).map (Vec.toPersist ∘ vecAt img)) =
      ((maskCoords img c.rgb).map fun p => Vec.toPersist (vecAt img p)) from rfl]
  exact foldlM_writeVec_eq_foldl img img.width img.height c.rgb hcb _ cv fun p hp => by
    obtain ⟨hph, hpw, hprgb⟩ := mem_maskCoords.mp hp
    exact ⟨hph, hpw, (hb p.1 p.2 hph hpw).2.2.2⟩

theorem foldlM_writePlane_eq_foldl (img : Raster)
    (hb : ∀ y x, y < img.height → x < img.width →
      (img.pix y x).r ≤ 255 ∧ (img.pix y x).g ≤ 255 ∧
      (img.pix y x).b ≤ 255 ∧ (img.pix y x).a ≤ 255) :
    ∀ (cs : List RGBA) (cv : Canvas), (∀ c ∈ cs, c ∈ encodeColors img) →
      (cs.map fun c => Plane.toPersist
          { color := c.rgb, vectors := (maskCoords img c.rgb).map (vecAt img) }).foldlM
        (writePlane img.width img.height) cv = .ok (cs.foldl (replayPlane img) cv)
  | [], cv, _ => rfl
  | c :: cs, cv, hall => by
    rw [List.map_cons, List.foldlM_cons, List.foldl_cons,
      writePlane_encode img hb c (hall c (List.mem_cons_self c cs)) cv, ok_bind]
    exact foldlM_writePlane_eq_foldl img hb cs _
      fun d hd => hall d (List.mem_cons_of_mem c hd)

theorem encode_zero_planes (img : Raster) :
    (encode img 0).planes =
      (encodeColors img).map fun c =>
        ({ color := c.rgb, vectors := (maskCoords img c.rgb).map (vecAt img) } : Plane) := by
  show (encodeColors img).filterMap (planeFor img 0) = _
  refine filterMap_eq_map_of_forall fun c hc => ?_
  have hne := maskCoords_rgb_ne_nil hc
  have hpos : 1 ≤ maskCount img c.rgb := by
    have := List.length_pos.mpr hne
    simpa [maskCount] using this
  rw [planeFor_of_ne_nil hne, strideFor_zero _ hpos, stride_one]

theorem decode_encode_zero (img : Raster)
    (hb : ∀ y x, y < img.height → x < img.width →
      (img.pix y x).r ≤ 255 ∧ (img.pix y x).g ≤ 255 ∧
      (img.pix y x).b ≤ 255 ∧ (img.pix y x).a ≤ 255) :
    decode (encode img 0).toPersist =
      .ok (replayAll img,
        if anyAlphaLt255 (replayAll img) then Fmt.rgba else Fmt.rgb) := by
  unfold decode Document.toPersist
  simp only [getField, ok_bind]
  rw [encode_zero_planes, List.map_map]
  rw [show ((encodeColors img).map
      (Plane.toPersist ∘ fun c =>
        ({ color := c.rgb, vectors := (maskCoords img c.rgb).map (vecAt img) } : Plane))) =
      ((encodeColors img).map fun c => Plane.toPersist
        { color := c.rgb, vectors := (maskCoords img c.rgb).map (vecAt img) }) from rfl]
  rw [show (encode img 0).width = img.width from rfl,
    show (encode img 0).height = img.height from rfl]
  rw [foldlM_writePlane_eq_foldl img hb (encodeColors img) _ fun c hc => hc, ok_bind]
  show (if anyAlphaLt255 (replayAll img) then _ else _) = _
  split <;> rfl

theorem applyVecAt_at_self (img : Raster) (color : ℕ × ℕ × ℕ) (cv : Canvas) (p : ℕ × ℕ) :
    (applyVecAt img color cv p).rgbEntry p.1 p.2 = color ∧
    (applyVecAt img color cv p).alphaEntry p.1 p.2 = (img.pix p.1 p.2).a := by
  simp [applyVecAt, Canvas.setRGB, Canvas.setAlpha]

theorem applyVecAt_at_other (img : Raster) (color : ℕ × ℕ × ℕ) (cv : Canvas)
    (p : ℕ × ℕ) (y x : ℕ) (hne : ¬ (y = p.1 ∧ x = p.2)) :
    (applyVecAt img color cv p).rgbEntry y x = cv.rgbEntry y x ∧
    (applyVecAt img color cv p).alphaEntry y x = cv.alphaEntry y x := by
  simp [applyVecAt, Canvas.setRGB, Canvas.setAlpha, if_neg hne]

theorem foldl_applyVecAt_at (img : Raster) (color : ℕ × ℕ × ℕ) (y x : ℕ) :
    ∀ (l : List (ℕ × ℕ)) (cv : Canvas), (∀ p ∈ l, (img.pix p.1 p.2).rgb = color) →
      ((l.foldl (applyVecAt img color) cv).rgbEntry y x = cv.rgbEntry y x ∧
       (l.foldl (applyVecAt img color) cv).alphaEntry y x = cv.alphaEntry y x) ∨
      ((l.foldl (applyVecAt img color) cv).rgbEntry y x = (img.pix y x).rgb ∧
       (l.foldl (applyVecAt img color) cv).alphaEntry y x = (img.pix y x).a)
  | [], _, _ => Or.inl ⟨rfl, rfl⟩
  | p :: l, cv, hall => by
    rw [List.foldl_cons]
    rcases foldl_applyVecAt_at img color y x l (applyVecAt img color cv p)
        (fun q hq => hall q (List.mem_cons_of_mem p hq)) with h | h
    · by_cases hpq : y = p.1 ∧ x = p.2
      · right
        have hself := applyVecAt_at_self img color cv p
        have hcolor : color = (img.pix y x).rgb := by
          rw [hpq.1, hpq.2]
          exact (hall p (List.mem_cons_self p l)).symm
      
        refine ⟨?_, ?_⟩
        · rw [h.1, hpq.1, hpq.2, hself.1, hcolor, hpq.1, hpq.2]
        · rw [h.2, hpq.1, hpq.2, hself.2]
      · left
        have hother := applyVecAt_at_other img color cv p y x hpq
        exact ⟨h.1.trans hother.1, h.2.trans hother.2⟩
    · exact Or.inr h

theorem foldl_applyVecAt_at_mem (img : Raster) (color : ℕ × ℕ × ℕ) (y x : ℕ) :
    ∀ (l : List (ℕ × ℕ)) (cv : Canvas), (∀ p ∈ l, (img.pix p.1 p.2).rgb = color) →
      (y, x) ∈ l →
      ((l.foldl (applyVecAt img color) cv).rgbEntry y x = (img.pix y x).rgb ∧
       (l.foldl (applyVecAt img color) cv).alphaEntry y x = (img.pix y x).a)
  | [], _, _, hmem => absurd hmem (List.not_mem_nil _)
  | p :: l, cv, hall, hmem => by
    rw [List.foldl_cons]
    rcases List.mem_cons.mp hmem with heq | hmem2
    · rcases foldl_applyVecAt_at img color y x l (applyVecAt img color cv p)
          (fun q hq => hall q (List.mem_cons_of_mem p hq)) with h | h
      · have hself := applyVecAt_at_self img color cv p
        have hp1 : p.1 = y := by rw [← heq]
        have hp2 : p.2 = x := by rw [← heq]
        have hcolor : color = (img.pix y x).rgb := by
          rw [← hp1, ← hp2]
          exact (hall p (List.mem_cons_self p l)).symm
        refine ⟨?_, ?_⟩
        · rw [h.1, ← hp1, ← hp2, hself.1, hcolor, ← hp1, ← hp2]
        · rw [h.2, ← hp1, ← hp2, hself.2]
      · exact h
    · exact foldl_applyVecAt_at_mem img color y x l (applyVecAt img color cv p)
        (fun q hq => hall q (List.mem_cons_of_mem p hq)) hmem2

theorem replayPlane_at (img : Raster) (c : RGBA) (cv : Canvas) (y x : ℕ) :
    ((replayPlane img cv c).rgbEntry y x = cv.rgbEntry y x ∧
     (replayPlane img cv c).alphaEntry y x = cv.alphaEntry y x) ∨
    ((replayPlane img cv c).rgbEntry y x = (img.pix y x).rgb ∧
     (replayPlane img cv c).alphaEntry y x = (img.pix y x).a) :=
  foldl_applyVecAt_at img c.rgb y x (maskCoords img c.rgb) cv
    fun p hp => (mem_maskCoords.mp hp).2.2

theorem replayPlane_at_mem (img : Raster) (c : RGBA) (cv : Canvas) (y x : ℕ)
    (hmem : (y, x) ∈ maskCoords img c.rgb) :
    (replayPlane img cv c).rgbEntry y x = (img.pix y x).rgb ∧
    (replayPlane img cv c).alphaEntry y x = (img.pix y x).a :=
  foldl_applyVecAt_at_mem img c.rgb y x (maskCoords img c.rgb) cv
    (fun p hp => (mem_maskCoords.mp hp).2.2) hmem

theorem foldl_replayPlane_at (img : Raster) (y x : ℕ) :
    ∀ (cs : List RGBA) (cv : Canvas),
      ((cs.foldl (replayPlane img) cv).rgbEntry y x = cv.rgbEntry y x ∧
       (cs.foldl (replayPlane img) cv).alphaEntry y x = cv.alphaEntry y x) ∨
      ((cs.foldl (replayPlane img) cv).rgbEntry y x = (img.pix y x).rgb ∧
       (cs.foldl (replayPlane img) cv).alphaEntry y x = (img.pix y x).a)
  | [], _ => Or.inl ⟨rfl, rfl⟩
  | c :: cs, cv => by
    rw [List.foldl_cons]
    rcases foldl_replayPlane_at img y x cs (replayPlane img cv c) with h | h
    · rcases replayPlane_at img c cv y x with h2 | h2
      · exact Or.inl ⟨h.1.trans h2.1, h.2.trans h2.2⟩
      · exact Or.inr ⟨h.1.trans h2.1, h.2.trans h2.2⟩
    · exact Or.inr h

theorem foldl_replayPlane_at_mem (img : Raster) (y x : ℕ) :
    ∀ (cs : List RGBA) (cv : Canvas) (c : RGBA), c ∈ cs →
      (y, x) ∈ maskCoords img c.rgb →
      ((cs.foldl (replayPlane img) cv).rgbEntry y x = (img.pix y x).rgb ∧
       (cs.foldl (replayPlane img) cv).alphaEntry y x = (img.pix y x).a)
  | [], _, _, hc, _ => absurd hc (List.not_mem_nil _)
  | c0 :: cs, cv, c, hc, hmem => by
    rw [List.foldl_cons]
    rcases List.mem_cons.mp hc with rfl | hc2
    · rcases foldl_replayPlane_at img y x cs (replayPlane img cv c) with h | h
      · have h2 := replayPlane_at_mem img c cv y x hmem
        exact ⟨h.1.trans h2.1, h.2.trans h2.2⟩
      · exact h
    · exact foldl_replayPlane_at_mem img y x cs (replayPlane img cv c0) c hc2 hmem

/-- C4: encoding any raster (with byte-valued channels) at margin 0 and
decoding the result succeeds and reproduces every pixel: the RGB channels
exactly, and the alpha value within 1/255 of the original (in this
rational model `int((a/255)*255) = a`, so alpha is in fact exact). -/
theorem C4_zero_error_roundtrip (img : Raster)
    (hb : ∀ y x, y < img.height → x < img.width →
      (img.pix y x).r ≤ 255 ∧ (img.pix y x).g ≤ 255 ∧
      (img.pix y x).b ≤ 255 ∧ (img.pix y x).a ≤ 255) :
    ∃ cv fmt, decode (encode img 0).toPersist = .ok (cv, fmt) ∧
      ∀ y x, y < img.height → x < img.width →
        cv.rgbEntry y x = (img.pix y x).rgb ∧
        |(cv.alphaEntry y x : ℚ) / 255 - ((img.pix y x).a : ℚ) / 255| ≤ 1 / 255 := by
  refine ⟨replayAll img, _, decode_encode_zero img hb, ?_⟩
  intro y x hy hx
  have hmem : img.pix y x ∈ encodeColors img :=
    mem_encodeColors.mpr (mem_pixelList.mpr ⟨y, x, hy, hx, rfl⟩)
  have hmask : (y, x) ∈ maskCoords img (img.pix y x).rgb :=
    mem_maskCoords.mpr ⟨hy, hx, rfl⟩
  have hval := foldl_replayPlane_at_mem img y x (encodeColors img)
    (blankCanvas img.width img.height) (img.pix y x) hmem hmask
  refine ⟨hval.1, ?_⟩
  rw [show replayAll img = (encodeColors img).foldl (replayPlane img)
      (blankCanvas img.width img.height) from rfl, hval.2]
  simp

/-- C4 witness: the round trip applied to the one-pixel raster `imgW`. -/
theorem C4_zero_error_roundtrip_witness :
    (∀ y x, y < imgW.height → x < imgW.width →
      (imgW.pix y x).r ≤ 255 ∧ (imgW.pix y x).g ≤ 255 ∧
      (imgW.pix y x).b ≤ 255 ∧ (imgW.pix y x).a ≤ 255) ∧
    (∃ cv fmt, decode (encode imgW 0).toPersist = .ok (cv, fmt) ∧
      ∀ y x, y < imgW.height → x < imgW.width →
        cv.rgbEntry y x = (imgW.pix y x).rgb ∧
        |(cv.alphaEntry y x : ℚ) / 255 - ((imgW.pix y x).a : ℚ) / 255| ≤ 1 / 255) := by
  have hb : ∀ y x, y < imgW.height → x < imgW.width →
      (imgW.pix y x).r ≤ 255 ∧ (imgW.pix y x).g ≤ 255 ∧
      (imgW.pix y x).b ≤ 255 ∧ (imgW.pix y x).a ≤ 255 :=
    by intro y x _ _; refine ⟨?_, ?_, ?_, ?_⟩ <;> norm_num [imgW]
  exact ⟨hb, C4_zero_error_roundtrip imgW hb⟩
